import Mathlib

/-!
Verification of the cache merge engine (`src/python/cache_merger.py`) and the
parallel head-test executor (`src/python/test_repo_heads.py`) of the
AST-Merging-Evaluation repository, via a shallow embedding.

Filesystem trees are modelled as association lists from paths (lists of path
components) to file contents.  A structured (`.json`) file is modelled by its
parsed key-mapping; every other file by its raw bytes.  Fallible operations
(JSON parsing of a non-mapping) return `Option`, mirroring the fatal abort of
the Python code.
-/

set_option maxHeartbeats 1000000

namespace AstMerge

abbrev Key := String

/-- A path is a list of path components, mirroring `pathlib.Path.parts`. -/
abbrev RelPath := List String

/-- Content of one file: either a structured file that parses as a JSON
key-mapping (its top-level entries in file order), or an opaque byte blob. -/
inductive Content where
  | jmap (m : List (Key × String)) : Content
  | bytes (b : List Nat) : Content
deriving DecidableEq, Repr

/-- One producer cache: its root directory (as path components) and the files
it contains, keyed by path relative to the root (in `rglob` enumeration
order). -/
structure Cache where
  root : List String
  files : List (RelPath × Content)
deriving DecidableEq, Repr

/-- The output tree: files keyed by path relative to the output root. -/
abbrev Out := List (RelPath × Content)

/-- First-match association lookup: the content at path `p`, if present. -/
def lookupFS : List (RelPath × Content) → RelPath → Option Content
  | [], _ => none
  | (q, d) :: rest, p => if q = p then some d else lookupFS rest p

/-- The content a cache holds at relative path `p`, if any. -/
def Cache.lookup (c : Cache) (p : RelPath) : Option Content :=
  lookupFS c.files p

/-- Writing file `d` at path `p` (creating parent directories is implicit). -/
def setFile (out : Out) (p : RelPath) (d : Content) : Out :=
  (p, d) :: out

/-- `pathlib.PurePath.suffix` of one file name: the extension from the last
dot, empty when the name has no dot, starts with its only dot, or ends with
the dot. -/
def nameSuffix (name : String) : String :=
  let cs := name.toList
  let pre := cs.reverse.takeWhile (fun c => c ≠ '.')
  if pre.length + 2 ≤ cs.length ∧ 1 ≤ pre.length then
    String.mk ('.' :: pre.reverse)
  else ""

/-- `Path.suffix` of a path: the suffix of its final component. -/
def pathSuffix (parts : List String) : String :=
  nameSuffix ((parts.getLast?).getD "")

/-- `json.load` of a file content: succeeds exactly on a key-mapping
(anything else raises, which is fatal for the merge). -/
def parseDict : Content → Option (List (Key × String))
  | Content.jmap m => some m
  | Content.bytes _ => none

/-- Python `dict` assignment `d[k] = v`: replace in place when the key is
present, append otherwise. -/
def setKey (d : List (Key × String)) (k : Key) (v : String) : List (Key × String) :=
  if (d.map Prod.fst).contains k then
    d.map (fun q => if q.1 = k then (k, v) else q)
  else d ++ [(k, v)]

/-- Python `dict.update`: apply every entry of `newd` to `d` in order. -/
def dictUpdate (d newd : List (Key × String)) : List (Key × String) :=
  newd.foldl (fun acc q => setKey acc q.1 q.2) d

/-- Boolean lexicographic comparison of character lists. -/
def charsLe : List Char → List Char → Bool
  | [], _ => true
  | _ :: _, [] => false
  | x :: xs, y :: ys => if x < y then true else if y < x then false else charsLe xs ys

/-- Boolean string comparison used to model `sort_keys=True`. -/
def strLeB (a b : String) : Bool := charsLe a.toList b.toList

/-- Insert one entry into a key-sorted list. -/
def insertSorted (p : Key × String) : List (Key × String) → List (Key × String)
  | [] => [p]
  | q :: rest => if strLeB p.1 q.1 then p :: q :: rest else q :: insertSorted p rest

/-- Sort entries by key, modelling `json.dump(..., sort_keys=True)`. -/
def sortByKey (l : List (Key × String)) : List (Key × String) :=
  l.foldr insertSorted []

/-- One iteration of the loop in `merge_json_data`: skip a missing path,
parse and `update` an existing one (parse failure is fatal). -/
def loadAndUpdate (data : List (Key × String)) (inp : Option Content) :
    Option (List (Key × String)) :=
  match inp with
  | none => some data
  | some c => (parseDict c).map (fun m => dictUpdate data m)

/-- The accumulation loop of `merge_json_data` over the listed paths. -/
def mergeLoop : List (Key × String) → List (Option Content) → Option (List (Key × String))
  | data, [] => some data
  | data, inp :: rest =>
    match loadAndUpdate data inp with
    | none => none
    | some d => mergeLoop d rest

/-- `merge_json_data(paths, output_path)`: fold `dict.update` over the inputs
that exist (starting from `{}`), then unconditionally write the result with
sorted keys.  `none` models the fatal exception on an unparsable input.  The
`i`-th entry of `inputs` is the content of the `i`-th listed path, or `none`
when that path does not exist. -/
def merge_json_data (inputs : List (Option Content)) : Option Content :=
  (mergeLoop [] inputs).map (fun d => Content.jmap (sortByKey d))

/-- `copy_file(source, destination)`: copy only when the destination does not
exist yet. -/
def copy_file (src : Content) (out : Out) (dest : RelPath) : Out :=
  if (lookupFS out dest).isSome then out else setFile out dest src

/-- The body of the `rglob` loop of `process_directory` for one file `rf` of
the cache `cur`: strip the first component of the full path, collect the
corresponding files of the other caches, then merge (`.json`), skip
(`.lock`) or copy-once (anything else). -/
def processFile (others : List Cache) (cur : Cache) (out : Out)
    (rf : RelPath × Content) : Option Out :=
  let fullPath := cur.root ++ rf.1
  let rel := fullPath.drop 1
  let correspondingContents := others.filterMap (fun c => c.lookup rel)
  if pathSuffix fullPath = ".json" then
    (merge_json_data (some rf.2 :: correspondingContents.map some)).map (setFile out rel)
  else if pathSuffix fullPath ≠ ".lock" then
    some (copy_file rf.2 out rel)
  else
    some out

/-- `process_directory(directory, other_caches, output_cache)`: the `rglob`
loop over the files of `cur`. -/
def process_directory (others : List Cache) (cur : Cache) :
    Out → List (RelPath × Content) → Option Out
  | out, [] => some out
  | out, rf :: rest =>
    match processFile others cur out rf with
    | none => none
    | some out₁ => process_directory others cur out₁ rest

/-- The loop of `merge_caches`: process each cache against the others
(`[c for c in caches if c != cache]`, comparing the `Path` roots). -/
def mergeList (all : List Cache) : Out → List Cache → Option Out
  | out, [] => some out
  | out, c :: rest =>
    match process_directory (all.filter (fun x => x.root ≠ c.root)) c out c.files with
    | none => none
    | some out₁ => mergeList all out₁ rest

/-- `merge_caches(caches, output_cache)`. -/
def merge_caches (caches : List Cache) (out : Out) : Option Out :=
  mergeList caches out caches

/-! ## Derived notions used to state properties of the merge -/

/-- The `other_caches` list `merge_caches` passes for the cache `c`. -/
def othersFor (all : List Cache) (c : Cache) : List Cache :=
  all.filter (fun x => x.root ≠ c.root)

/-- The object `merge_json_data` computes for a file with parsed content `d`
at relative path `p` of the currently processed cache, merged with the
corresponding files of `others`. -/
def jsonMergeAt (others : List Cache) (p : RelPath) (d : Content) : Option Content :=
  merge_json_data (some d :: (others.filterMap (fun c => c.lookup p)).map some)

/-- The effect of processing one source file with content `d` at relative
path `p` on the output content `prev` previously stored at `p`. -/
def fileEffect (others : List Cache) (p : RelPath) (d : Content)
    (prev : Option Content) : Option Content :=
  if pathSuffix p = ".json" then jsonMergeAt others p d
  else if pathSuffix p ≠ ".lock" then some (prev.getD d)
  else prev

/-- The effect of processing one whole cache on the output content at `p`. -/
def cacheEffect (others : List Cache) (c : Cache) (p : RelPath)
    (prev : Option Content) : Option Content :=
  match c.lookup p with
  | some d => fileEffect others p d prev
  | none => prev

/-- The last cache of `cs` (in input order) that has a file at `p`. -/
def lastContaining (cs : List Cache) (p : RelPath) : Option Cache :=
  match cs with
  | [] => none
  | c :: rest =>
    match lastContaining rest p with
    | some c' => some c'
    | none => if (c.lookup p).isSome then some c else none

/-- Well-formedness of one source cache directory as walked by
`process_directory`: the root is a single path component (so that
`path.parts[1:]` is exactly the path relative to the root), files lie
strictly below the root, and `rglob` enumerates each file once. -/
def PerCacheWF (c : Cache) : Prop :=
  c.root.length = 1 ∧ (∀ rf ∈ c.files, rf.1 ≠ []) ∧ (c.files.map Prod.fst).Nodup

instance (c : Cache) : Decidable (PerCacheWF c) := by
  unfold PerCacheWF; infer_instance

/-- The keys of an entry list are in ascending order. -/
def keysSortedB : List (Key × String) → Bool
  | [] => true
  | [_] => true
  | p :: q :: rest => strLeB p.1 q.1 && keysSortedB (q :: rest)

/-! ## The parallel test executor (`test_repo_heads.py`) -/

/-- Modelled from the spec: the closed Outcome enumeration `TEST_STATE` of the
`repo` module, which is not part of the sources; only the members used by
`test_repo_heads.py` and the spec's taxonomy are needed. -/
inductive TEST_STATE where
  | Tests_passed
  | Tests_failed
  | Tests_timedout
  | Tests_exception
  | Git_checkout_failed
deriving DecidableEq, Repr

/-- The Python `Enum.name` of a `TEST_STATE` member. -/
def TEST_STATE.name : TEST_STATE → String
  | .Tests_passed => "Tests_passed"
  | .Tests_failed => "Tests_failed"
  | .Tests_timedout => "Tests_timedout"
  | .Tests_exception => "Tests_exception"
  | .Git_checkout_failed => "Git_checkout_failed"

/-- State of a task's working directory on disk. -/
inductive DirState where
  | absent
  | presentEmpty
  | presentFull
deriving DecidableEq, Repr

/-- Modelled from the spec: the observable behaviour of the external
`Repository` / TestRunner capability (module `repo`, not in the sources) for
one task: whether the constructor raises, whether `checkout_and_test`
raises and otherwise what it returns, what its working directory looks like
at each point, and whether `clone_repo` materializes the full tree. -/
structure RepoBehavior where
  ctorRaises : Bool
  dirBefore : DirState
  dirAfterCtorRaise : DirState
  checkoutRaises : Bool
  checkoutState : TEST_STATE
  checkoutFingerprint : Option String
  dirAfterCheckout : DirState
  cloneSucceeds : Bool
deriving DecidableEq, Repr

/-- One row of the input table: the `repository` slug, the `head hash`
column, and the two columns `head_passes_tests` may set. -/
structure RepoInfo where
  repository : String
  head_hash : String
  head_test_result : Option String := none
  head_tree_fingerprint : Option (Option String) := none
deriving DecidableEq, Repr

/-- The observable effect of one `head_passes_tests` call: the returned row
(`none` when an exception propagated out to the pool), the propagated
exception, whether `Repository(...)` and `checkout_and_test` were invoked,
and the final state of the task's working directory. -/
structure TaskResult where
  row : Option RepoInfo
  raised : Option String
  ctorInvoked : Bool
  runnerInvoked : Bool
  dir : DirState
deriving DecidableEq, Repr

/-- `"/" in repo_slug` in Python. -/
def containsSlash (s : String) : Bool := s.toList.contains '/'

/-- `head_passes_tests((repo_info, cache))`, with the external `Repository`
capability abstracted by `b`.  Mirrors the source: slug check (`"/" in
slug`), hash length check (`len != 40`), `Repository` construction with its
`try/except` recording `Git_checkout_failed`, `checkout_and_test` (not
guarded: an exception propagates), the `clone_repo` + existence assertion on
`Tests_passed`, and `shutil.rmtree(..., ignore_errors=True)` otherwise
(modelled as removing the directory). -/
def head_passes_tests (b : RepoBehavior) (info : RepoInfo) : TaskResult :=
  if ¬ containsSlash info.repository then
    { row := some { info with head_test_result := some "Wrong format" },
      raised := none, ctorInvoked := false, runnerInvoked := false,
      dir := b.dirBefore }
  else if info.head_hash.length ≠ 40 then
    { row := some { info with head_test_result := some "No valid head hash" },
      raised := none, ctorInvoked := false, runnerInvoked := false,
      dir := b.dirBefore }
  else if b.ctorRaises then
    { row := some { info with
        head_test_result := some TEST_STATE.Git_checkout_failed.name,
        head_tree_fingerprint := some none },
      raised := none, ctorInvoked := true, runnerInvoked := false,
      dir := b.dirAfterCtorRaise }
  else if b.checkoutRaises then
    { row := none, raised := some "checkout_and_test", ctorInvoked := true,
      runnerInvoked := true, dir := b.dirAfterCheckout }
  else
    let infoF := { info with head_tree_fingerprint := some b.checkoutFingerprint }
    if b.checkoutState = TEST_STATE.Tests_passed then
      if b.cloneSucceeds then
        { row := some { infoF with head_test_result := some b.checkoutState.name },
          raised := none, ctorInvoked := true, runnerInvoked := true,
          dir := DirState.presentFull }
      else
        { row := none, raised := some "AssertionError", ctorInvoked := true,
          runnerInvoked := true, dir := DirState.absent }
    else
      { row := some { infoF with head_test_result := some b.checkoutState.name },
        raised := none, ctorInvoked := true, runnerInvoked := true,
        dir := DirState.absent }

/-- The recorded `head test result` of a task, when a row was returned. -/
def resultOf (t : TaskResult) : Option String :=
  t.row.bind (fun r => r.head_test_result)

/-- One table write performed by the `__main__` aggregation. -/
structure CsvWrite where
  path : String
  rows : List RepoInfo
deriving DecidableEq, Repr

/-- The aggregation tail of `__main__`: filter the rows whose result is
`Tests_passed`; when none pass, raise (so nothing is written and the process
exits non-zero); otherwise write the filtered table to the output path and
the full table next to it, in that order. -/
def buildOutputs (rows : List RepoInfo) (outputPath : String) :
    Except String (List CsvWrite) :=
  let filtered := rows.filter (fun r => r.head_test_result = some TEST_STATE.Tests_passed.name)
  if filtered.length = 0 then
    Except.error "No repos found whose head passes tests"
  else
    Except.ok [⟨outputPath, filtered⟩, ⟨"all_repos_head_test_results.csv", rows⟩]

/-! ## Basic lemmas about the filesystem model -/

theorem lookupFS_setFile (out : Out) (p : RelPath) (d : Content) (q : RelPath) :
    lookupFS (setFile out p d) q = if p = q then some d else lookupFS out q := rfl

theorem pathSuffix_cons (a : String) (p : RelPath) (hp : p ≠ []) :
    pathSuffix (a :: p) = pathSuffix p := by
  unfold pathSuffix
  cases p with
  | nil => exact absurd rfl hp
  | cons b q => rfl

theorem lookupFS_mem {l : List (RelPath × Content)} {p : RelPath} {d : Content}
    (h : lookupFS l p = some d) : (p, d) ∈ l := by
  induction l with
  | nil => simp [lookupFS] at h
  | cons x rest ih =>
    obtain ⟨q, e⟩ := x
    by_cases hq : q = p
    · subst hq
      simp [lookupFS] at h
      simp [h]
    · simp [lookupFS, hq] at h
      exact List.mem_cons_of_mem _ (ih h)

theorem lookupFS_isSome_of_mem {l : List (RelPath × Content)} {p : RelPath} {d : Content}
    (h : (p, d) ∈ l) : (lookupFS l p).isSome := by
  induction l with
  | nil => simp at h
  | cons x rest ih =>
    obtain ⟨q, e⟩ := x
    rcases List.mem_cons.mp h with h1 | h2
    · cases h1
      simp [lookupFS]
    · by_cases hq : q = p
      · simp [lookupFS, hq]
      · simpa [lookupFS, hq] using ih h2

theorem lookupFS_eq_none_of_not_mem_keys {l : List (RelPath × Content)} {p : RelPath}
    (h : p ∉ l.map Prod.fst) : lookupFS l p = none := by
  induction l with
  | nil => rfl
  | cons x rest ih =>
    obtain ⟨q, e⟩ := x
    simp only [List.map_cons, List.mem_cons, not_or] at h
    have hq : q ≠ p := fun e => h.1 e.symm
    simp [lookupFS, hq, ih h.2]

/-! ## Characterizing one processed file -/

theorem processFile_some (others : List Cache) (cur : Cache) (out : Out)
    (rf : RelPath × Content) (a : String) (hroot : cur.root = [a]) (hr : rf.1 ≠ [])
    (out' : Out) (h : processFile others cur out rf = some out') (p : RelPath) :
    lookupFS out' p =
      if rf.1 = p then fileEffect others rf.1 rf.2 (lookupFS out p)
      else lookupFS out p := by
  unfold processFile at h
  rw [hroot] at h
  simp only [List.cons_append, List.nil_append, List.drop_succ_cons, List.drop_zero,
    pathSuffix_cons a rf.1 hr] at h
  by_cases hj : pathSuffix rf.1 = ".json"
  · rw [if_pos hj] at h
    rcases Option.map_eq_some'.mp h with ⟨v, hv, hout⟩
    subst hout
    by_cases hp : rf.1 = p
    · subst hp
      simp [lookupFS_setFile, fileEffect, hj, jsonMergeAt, hv]
    · simp [lookupFS_setFile, hp]
  · rw [if_neg hj] at h
    by_cases hl : pathSuffix rf.1 = ".lock"
    · rw [if_neg (by simpa using hl)] at h
      cases h
      by_cases hp : rf.1 = p
      · subst hp
        simp [fileEffect, hj, hl]
      · simp [hp]
    · rw [if_pos (by simpa using hl)] at h
      cases h
      unfold copy_file
      by_cases he : (lookupFS out rf.1).isSome
      · rcases Option.isSome_iff_exists.mp he with ⟨x, hx⟩
        rw [if_pos he]
        by_cases hp : rf.1 = p
        · subst hp
          simp [fileEffect, hj, hl, hx]
        · simp [hp]
      · rw [if_neg he]
        rw [Option.not_isSome_iff_eq_none] at he
        by_cases hp : rf.1 = p
        · subst hp
          simp [lookupFS_setFile, fileEffect, hj, hl, he]
        · simp [lookupFS_setFile, hp]

theorem processFile_isSome (others : List Cache) (cur : Cache) (out : Out)
    (rf : RelPath × Content) (a : String) (hroot : cur.root = [a]) (hr : rf.1 ≠ []) :
    (processFile others cur out rf).isSome ↔
      (pathSuffix rf.1 = ".json" → (jsonMergeAt others rf.1 rf.2).isSome) := by
  unfold processFile
  rw [hroot]
  simp only [List.cons_append, List.nil_append, List.drop_succ_cons, List.drop_zero,
    pathSuffix_cons a rf.1 hr]
  by_cases hj : pathSuffix rf.1 = ".json"
  · rw [if_pos hj]
    simp [jsonMergeAt, hj]
  · rw [if_neg hj]
    by_cases hl : pathSuffix rf.1 = ".lock"
    · rw [if_neg (by simpa using hl)]
      simp [hj]
    · rw [if_pos (by simpa using hl)]
      simp [hj]

/-! ## Characterizing one processed cache directory -/

theorem process_directory_some (others : List Cache) (cur : Cache) (a : String)
    (hroot : cur.root = [a]) :
    ∀ (files : List (RelPath × Content)) (out out' : Out),
      (∀ rf ∈ files, rf.1 ≠ []) → (files.map Prod.fst).Nodup →
      process_directory others cur out files = some out' →
      ∀ p, lookupFS out' p =
        match lookupFS files p with
        | some d => fileEffect others p d (lookupFS out p)
        | none => lookupFS out p := by
  intro files
  induction files with
  | nil =>
    intro out out' _ _ h p
    cases h
    rfl
  | cons rf rest ih =>
    obtain ⟨r, d⟩ := rf
    intro out out' hne hnd h p
    unfold process_directory at h
    cases hpf : processFile others cur out (r, d) with
    | none => rw [hpf] at h; cases h
    | some out₁ =>
      rw [hpf] at h
      have hr : r ≠ [] := hne (r, d) (List.mem_cons_self _ _)
      have hstep := processFile_some others cur out (r, d) a hroot hr out₁ hpf
      simp only [List.map_cons, List.nodup_cons] at hnd
      have hner : ∀ x ∈ rest, x.1 ≠ [] := fun x hx => hne x (List.mem_cons_of_mem _ hx)
      have ihh := ih out₁ out' hner hnd.2 h p
      by_cases hp : r = p
      · subst hp
        have hrest : lookupFS rest r = none := lookupFS_eq_none_of_not_mem_keys hnd.1
        rw [ihh, hrest]
        have h1 := hstep r
        rw [if_pos rfl] at h1
        simp [lookupFS, h1]
      · have h1 := hstep p
        rw [if_neg hp] at h1
        rw [ihh, h1]
        simp [lookupFS, hp]

theorem process_directory_json_ok (others : List Cache) (cur : Cache) (a : String)
    (hroot : cur.root = [a]) :
    ∀ (files : List (RelPath × Content)) (out out' : Out),
      (∀ rf ∈ files, rf.1 ≠ []) →
      process_directory others cur out files = some out' →
      ∀ rf ∈ files, pathSuffix rf.1 = ".json" → (jsonMergeAt others rf.1 rf.2).isSome := by
  intro files
  induction files with
  | nil =>
    intro out out' _ _ rf hrf
    simp at hrf
  | cons rf0 rest ih =>
    intro out out' hne h rf hrf hjson
    unfold process_directory at h
    cases hpf : processFile others cur out rf0 with
    | none => rw [hpf] at h; cases h
    | some out₁ =>
      rw [hpf] at h
      rcases List.mem_cons.mp hrf with h1 | h2
      · subst h1
        have hr : rf.1 ≠ [] := hne rf (List.mem_cons_self _ _)
        have := (processFile_isSome others cur out rf a hroot hr).mp
          (by rw [hpf]; rfl)
        exact this hjson
      · exact ih out₁ out' (fun x hx => hne x (List.mem_cons_of_mem _ hx)) h rf h2 hjson

theorem process_directory_isSome (others : List Cache) (cur : Cache) (a : String)
    (hroot : cur.root = [a]) :
    ∀ (files : List (RelPath × Content)) (out : Out),
      (∀ rf ∈ files, rf.1 ≠ []) →
      (∀ rf ∈ files, pathSuffix rf.1 = ".json" → (jsonMergeAt others rf.1 rf.2).isSome) →
      (process_directory others cur out files).isSome := by
  intro files
  induction files with
  | nil =>
    intro out _ _
    simp [process_directory]
  | cons rf0 rest ih =>
    intro out hne hok
    have hr : rf0.1 ≠ [] := hne rf0 (List.mem_cons_self _ _)
    have h1 : (processFile others cur out rf0).isSome :=
      (processFile_isSome others cur out rf0 a hroot hr).mpr
        (hok rf0 (List.mem_cons_self _ _))
    rcases Option.isSome_iff_exists.mp h1 with ⟨out₁, hout₁⟩
    have h2 := ih out₁ (fun x hx => hne x (List.mem_cons_of_mem _ hx))
      (fun x hx => hok x (List.mem_cons_of_mem _ hx))
    unfold process_directory
    rw [hout₁]
    exact h2

/-! ## Characterizing the whole merge -/

theorem mergeList_char (all : List Cache) :
    ∀ (cs : List Cache) (out out' : Out),
      (∀ c ∈ cs, PerCacheWF c) →
      mergeList all out cs = some out' →
      ∀ p, lookupFS out' p =
        cs.foldl (fun prev c => cacheEffect (othersFor all c) c p prev) (lookupFS out p) := by
  intro cs
  induction cs with
  | nil =>
    intro out out' _ h p
    cases h
    rfl
  | cons c rest ih =>
    intro out out' hwf h p
    unfold mergeList at h
    cases hpd : process_directory (all.filter (fun x => x.root ≠ c.root)) c out c.files with
    | none => rw [hpd] at h; cases h
    | some out₁ =>
      rw [hpd] at h
      obtain ⟨hlen, hne, hnd⟩ := hwf c (List.mem_cons_self _ _)
      obtain ⟨a, ha⟩ := List.length_eq_one.mp hlen
      have hdir := process_directory_some (all.filter (fun x => x.root ≠ c.root)) c a ha
        c.files out out₁ hne hnd hpd p
      have heff : lookupFS out₁ p = cacheEffect (othersFor all c) c p (lookupFS out p) := by
        rw [hdir]
        unfold cacheEffect Cache.lookup othersFor
        rfl
      have ihh := ih out₁ out' (fun x hx => hwf x (List.mem_cons_of_mem _ hx)) h p
      rw [ihh, heff]
      rfl

theorem mergeList_json_ok (all : List Cache) :
    ∀ (cs : List Cache) (out out' : Out),
      (∀ c ∈ cs, PerCacheWF c) →
      mergeList all out cs = some out' →
      ∀ c ∈ cs, ∀ rf ∈ c.files, pathSuffix rf.1 = ".json" →
        (jsonMergeAt (othersFor all c) rf.1 rf.2).isSome := by
  intro cs
  induction cs with
  | nil =>
    intro out out' _ _ c hc
    simp at hc
  | cons c0 rest ih =>
    intro out out' hwf h c hc rf hrf hjson
    unfold mergeList at h
    cases hpd : process_directory (all.filter (fun x => x.root ≠ c0.root)) c0 out c0.files with
    | none => rw [hpd] at h; cases h
    | some out₁ =>
      rw [hpd] at h
      rcases List.mem_cons.mp hc with h1 | h2
      · subst h1
        obtain ⟨hlen, hne, _⟩ := hwf c (List.mem_cons_self _ _)
        obtain ⟨a, ha⟩ := List.length_eq_one.mp hlen
        exact process_directory_json_ok (all.filter (fun x => x.root ≠ c.root)) c a ha
          c.files out out₁ hne hpd rf hrf hjson
      · exact ih out₁ out' (fun x hx => hwf x (List.mem_cons_of_mem _ hx)) h c h2 rf hrf hjson

theorem mergeList_isSome (all : List Cache) :
    ∀ (cs : List Cache) (out : Out),
      (∀ c ∈ cs, PerCacheWF c) →
      (∀ c ∈ cs, ∀ rf ∈ c.files, pathSuffix rf.1 = ".json" →
        (jsonMergeAt (othersFor all c) rf.1 rf.2).isSome) →
      (mergeList all out cs).isSome := by
  intro cs
  induction cs with
  | nil =>
    intro out _ _
    simp [mergeList]
  | cons c rest ih =>
    intro out hwf hok
    obtain ⟨hlen, hne, _⟩ := hwf c (List.mem_cons_self _ _)
    obtain ⟨a, ha⟩ := List.length_eq_one.mp hlen
    have h1 : (process_directory (all.filter (fun x => x.root ≠ c.root)) c out c.files).isSome :=
      process_directory_isSome (all.filter (fun x => x.root ≠ c.root)) c a ha c.files out hne
        (fun rf hrf => hok c (List.mem_cons_self _ _) rf hrf)
    rcases Option.isSome_iff_exists.mp h1 with ⟨out₁, hout₁⟩
    have h2 := ih out₁ (fun x hx => hwf x (List.mem_cons_of_mem _ hx))
      (fun x hx => hok x (List.mem_cons_of_mem _ hx))
    unfold mergeList
    rw [hout₁]
    exact h2

/-! ## Evaluating the per-path effect fold for each kind of path -/

theorem foldl_effect_lock (all : List Cache) (p : RelPath) (hs : pathSuffix p = ".lock") :
    ∀ (cs : List Cache) (prev : Option Content),
      cs.foldl (fun prev c => cacheEffect (othersFor all c) c p prev) prev = prev := by
  intro cs
  induction cs with
  | nil => intro prev; rfl
  | cons c rest ih =>
    intro prev
    rw [List.foldl_cons, ih]
    cases hc : c.lookup p with
    | none => simp [cacheEffect, hc]
    | some d => simp [cacheEffect, hc, fileEffect, hs]

theorem foldl_effect_opaque_some (all : List Cache) (p : RelPath)
    (hs1 : pathSuffix p ≠ ".json") (hs2 : pathSuffix p ≠ ".lock") :
    ∀ (cs : List Cache) (x : Content),
      cs.foldl (fun prev c => cacheEffect (othersFor all c) c p prev) (some x) = some x := by
  intro cs
  induction cs with
  | nil => intro x; rfl
  | cons c rest ih =>
    intro x
    rw [List.foldl_cons]
    have hstep : cacheEffect (othersFor all c) c p (some x) = some x := by
      cases hc : c.lookup p with
      | none => simp [cacheEffect, hc]
      | some d => simp [cacheEffect, hc, fileEffect, hs1, hs2]
    rw [hstep, ih]

theorem foldl_effect_opaque_none (all : List Cache) (p : RelPath)
    (hs1 : pathSuffix p ≠ ".json") (hs2 : pathSuffix p ≠ ".lock") :
    ∀ cs : List Cache,
      cs.foldl (fun prev c => cacheEffect (othersFor all c) c p prev) none =
        (cs.find? (fun c => (c.lookup p).isSome)).bind (fun c => c.lookup p) := by
  intro cs
  induction cs with
  | nil => rfl
  | cons c rest ih =>
    rw [List.foldl_cons]
    cases hc : c.lookup p with
    | none =>
      have hstep : cacheEffect (othersFor all c) c p none = none := by
        simp [cacheEffect, hc]
      rw [hstep, ih, List.find?_cons_of_neg _ (by simp [hc])]
    | some d =>
      have hstep : cacheEffect (othersFor all c) c p none = some d := by
        simp [cacheEffect, hc, fileEffect, hs1, hs2]
      rw [hstep, foldl_effect_opaque_some all p hs1 hs2 rest d,
        List.find?_cons_of_pos _ (by simp [hc])]
      simp [hc]

theorem lastContaining_mem {cs : List Cache} {p : RelPath} {c : Cache}
    (h : lastContaining cs p = some c) : c ∈ cs ∧ (c.lookup p).isSome := by
  induction cs with
  | nil => cases h
  | cons c0 rest ih =>
    unfold lastContaining at h
    cases hrest : lastContaining rest p with
    | some cr =>
      rw [hrest] at h
      cases h
      have := ih hrest
      exact ⟨List.mem_cons_of_mem _ this.1, this.2⟩
    | none =>
      rw [hrest] at h
      by_cases hc0 : (c0.lookup p).isSome
      · rw [if_pos hc0] at h
        cases h
        exact ⟨List.mem_cons_self _ _, hc0⟩
      · rw [if_neg hc0] at h
        cases h

theorem lastContaining_isSome_of_mem {cs : List Cache} {p : RelPath} {c : Cache}
    (hc : c ∈ cs) (hl : (c.lookup p).isSome) : (lastContaining cs p).isSome := by
  induction cs with
  | nil => simp at hc
  | cons c0 rest ih =>
    unfold lastContaining
    cases hrest : lastContaining rest p with
    | some cr => rfl
    | none =>
      rcases List.mem_cons.mp hc with h1 | h2
      · subst h1
        rw [if_pos hl]
        rfl
      · have := ih h2
        rw [hrest] at this
        cases this

theorem foldl_effect_json_none (all : List Cache) (p : RelPath) :
    ∀ (cs : List Cache) (prev : Option Content), lastContaining cs p = none →
      cs.foldl (fun prev c => cacheEffect (othersFor all c) c p prev) prev = prev := by
  intro cs
  induction cs with
  | nil => intro prev _; rfl
  | cons c rest ih =>
    intro prev h
    unfold lastContaining at h
    cases hrest : lastContaining rest p with
    | some cr => rw [hrest] at h; cases h
    | none =>
      rw [hrest] at h
      by_cases hc : (c.lookup p).isSome
      · rw [if_pos hc] at h; cases h
      · rw [Option.not_isSome_iff_eq_none] at hc
        rw [List.foldl_cons]
        have hstep : cacheEffect (othersFor all c) c p prev = prev := by
          simp [cacheEffect, hc]
        rw [hstep, ih prev hrest]

theorem foldl_effect_json_some (all : List Cache) (p : RelPath)
    (hs : pathSuffix p = ".json") :
    ∀ (cs : List Cache) (prev : Option Content) (cw : Cache) (d : Content),
      lastContaining cs p = some cw → cw.lookup p = some d →
      cs.foldl (fun prev c => cacheEffect (othersFor all c) c p prev) prev =
        jsonMergeAt (othersFor all cw) p d := by
  intro cs
  induction cs with
  | nil => intro prev cw d h; cases h
  | cons c0 rest ih =>
    intro prev cw d h hd
    unfold lastContaining at h
    rw [List.foldl_cons]
    cases hrest : lastContaining rest p with
    | some cr =>
      rw [hrest] at h
      cases h
      exact ih _ cw d hrest hd
    | none =>
      rw [hrest] at h
      by_cases hc0 : (c0.lookup p).isSome
      · rw [if_pos hc0] at h
        have hcc : c0 = cw := Option.some.inj h
        subst hcc
        have hstep : cacheEffect (othersFor all c0) c0 p prev =
            jsonMergeAt (othersFor all c0) p d := by
          simp [cacheEffect, hd, fileEffect, hs]
        rw [hstep]
        exact foldl_effect_json_none all p rest _ hrest
      · rw [if_neg hc0] at h
        cases h


/-! ## Sortedness of the serialized key order -/

theorem charsLe_total : ∀ xs ys : List Char, charsLe xs ys = false → charsLe ys xs = true := by
  intro xs
  induction xs with
  | nil => intro ys h; simp [charsLe] at h
  | cons x xs ih =>
    intro ys h
    cases ys with
    | nil => rfl
    | cons y ys =>
      unfold charsLe at h ⊢
      by_cases hxy : x < y
      · rw [if_pos hxy] at h; cases h
      · rw [if_neg hxy] at h
        by_cases hyx : y < x
        · rw [if_pos hyx]
        · rw [if_neg hyx] at h
          rw [if_neg hyx, if_neg hxy]
          exact ih ys h

theorem strLeB_total (a b : String) (h : strLeB a b = false) : strLeB b a = true :=
  charsLe_total a.toList b.toList h

theorem keysSortedB_insertSorted (p : Key × String) :
    ∀ l : List (Key × String), keysSortedB l = true → keysSortedB (insertSorted p l) = true := by
  intro l
  induction l with
  | nil => intro _; rfl
  | cons q rest ih =>
    intro h
    unfold insertSorted
    by_cases hpq : strLeB p.1 q.1
    · rw [if_pos hpq]
      simp [keysSortedB, hpq, h]
    · rw [if_neg hpq]
      have hqp : strLeB q.1 p.1 = true :=
        strLeB_total _ _ (Bool.not_eq_true _ ▸ Bool.of_not_eq_true hpq)
      cases rest with
      | nil => simp [insertSorted, keysSortedB, hqp]
      | cons r rest' =>
        simp only [keysSortedB, Bool.and_eq_true] at h
        have hqr : strLeB q.1 r.1 = true := h.1
        have hr : keysSortedB (r :: rest') = true := h.2
        have ihh := ih hr
        unfold insertSorted
        by_cases hpr : strLeB p.1 r.1
        · rw [if_pos hpr]
          simp [keysSortedB, hqp, hpr, hr]
        · rw [if_neg hpr]
          have hrw : insertSorted p (r :: rest') = r :: insertSorted p rest' := by
            simp [insertSorted, hpr]
          rw [hrw] at ihh
          simp [keysSortedB, hqr, ihh]

theorem keysSortedB_sortByKey (l : List (Key × String)) : keysSortedB (sortByKey l) = true := by
  unfold sortByKey
  induction l with
  | nil => rfl
  | cons p rest ih =>
    rw [List.foldr_cons]
    exact keysSortedB_insertSorted p _ ih

theorem mergeLoop_all_none :
    ∀ (inputs : List (Option Content)) (data : List (Key × String)),
      (∀ x ∈ inputs, x = none) → mergeLoop data inputs = some data := by
  intro inputs
  induction inputs with
  | nil => intro data _; rfl
  | cons i rest ih =>
    intro data h
    have hi : i = none := h i (List.mem_cons_self _ _)
    subst hi
    unfold mergeLoop loadAndUpdate
    exact ih data (fun x hx => h x (List.mem_cons_of_mem _ hx))

/-! ## Claims about the cache merger -/

/-- C5: for every well-formed list of source caches merged into a fresh
output, no file at a path with the `.lock` suffix is ever created: the
merged output tree never contains a lock entry, under any merged path. -/
theorem merge_excludes_locks (caches : List Cache) (out : Out)
    (hwf : ∀ c ∈ caches, PerCacheWF c)
    (h : merge_caches caches [] = some out)
    (p : RelPath) (hs : pathSuffix p = ".lock") :
    lookupFS out p = none := by
  have hchar := mergeList_char caches caches [] out hwf h p
  rw [hchar]
  exact foldl_effect_lock caches p hs caches none

/-- Witness for C5: a cache holding `w.lock` and `y.txt` merges to an output
containing only `y.txt`; the lock path is absent. -/
theorem merge_excludes_locks_witness :
    (∀ c ∈ [Cache.mk ["C"] [(["w.lock"], Content.bytes [9]), (["y.txt"], Content.bytes [3])]],
      PerCacheWF c) ∧
    pathSuffix ["w.lock"] = ".lock" ∧
    lookupFS [(["y.txt"], Content.bytes [3])] ["w.lock"] = none :=
  ⟨by decide, by decide,
    merge_excludes_locks
      [Cache.mk ["C"] [(["w.lock"], Content.bytes [9]), (["y.txt"], Content.bytes [3])]]
      [(["y.txt"], Content.bytes [3])]
      (by decide) (by rfl) ["w.lock"] (by decide)⟩

/-- C6: for every opaque path (suffix neither `.json` nor `.lock`), the
fresh-output merge holds the bytes of the first source, in input order, that
has a file at that path; later sources are ignored. -/
theorem merge_opaque_first_writer_wins (caches : List Cache) (out : Out)
    (hwf : ∀ c ∈ caches, PerCacheWF c)
    (h : merge_caches caches [] = some out)
    (p : RelPath) (hs1 : pathSuffix p ≠ ".json") (hs2 : pathSuffix p ≠ ".lock") :
    lookupFS out p =
      (caches.find? (fun c => (c.lookup p).isSome)).bind (fun c => c.lookup p) := by
  have hchar := mergeList_char caches caches [] out hwf h p
  rw [hchar]
  exact foldl_effect_opaque_none caches p hs1 hs2 caches

/-- Witness for C6: caches A and B hold differing bytes at `x.bin`; merging
[A,B] yields A's bytes and merging [B,A] yields B's bytes. -/
theorem merge_opaque_first_writer_wins_witness :
    (∀ c ∈ [Cache.mk ["A"] [(["x.bin"], Content.bytes [1])],
            Cache.mk ["B"] [(["x.bin"], Content.bytes [2])]], PerCacheWF c) ∧
    lookupFS [(["x.bin"], Content.bytes [1])] ["x.bin"] =
      (([Cache.mk ["A"] [(["x.bin"], Content.bytes [1])],
         Cache.mk ["B"] [(["x.bin"], Content.bytes [2])]].find?
        (fun c => (c.lookup ["x.bin"]).isSome)).bind (fun c => c.lookup ["x.bin"])) ∧
    lookupFS [(["x.bin"], Content.bytes [2])] ["x.bin"] =
      (([Cache.mk ["B"] [(["x.bin"], Content.bytes [2])],
         Cache.mk ["A"] [(["x.bin"], Content.bytes [1])]].find?
        (fun c => (c.lookup ["x.bin"]).isSome)).bind (fun c => c.lookup ["x.bin"])) :=
  ⟨by decide,
    merge_opaque_first_writer_wins
      [Cache.mk ["A"] [(["x.bin"], Content.bytes [1])],
       Cache.mk ["B"] [(["x.bin"], Content.bytes [2])]]
      [(["x.bin"], Content.bytes [1])]
      (by decide) (by rfl) ["x.bin"] (by decide) (by decide),
    merge_opaque_first_writer_wins
      [Cache.mk ["B"] [(["x.bin"], Content.bytes [2])],
       Cache.mk ["A"] [(["x.bin"], Content.bytes [1])]]
      [(["x.bin"], Content.bytes [2])]
      (by decide) (by rfl) ["x.bin"] (by decide) (by decide)⟩

/-- C1 counterexample: merging sources `A = {"k1": "v1"}` and
`B = {"k1": "v2", "k2": "v3"}` in order [A,B] yields
`{"k1": "v1", "k2": "v3"}` at `k.json`, not the `{"k1": "v2", "k2": "v3"}`
the claim predicts: the claimed later-source-wins tie-break does not hold. -/
theorem merge_structured_tiebreak_counterexample :
    Option.bind
        (merge_caches
          [Cache.mk ["A"] [(["k.json"], Content.jmap [("k1", "v1")])],
           Cache.mk ["B"] [(["k.json"], Content.jmap [("k1", "v2"), ("k2", "v3")])]] [])
        (fun o => lookupFS o ["k.json"]) =
      some (Content.jmap [("k1", "v1"), ("k2", "v3")]) ∧
    Content.jmap [("k1", "v1"), ("k2", "v3")] ≠
      Content.jmap [("k1", "v2"), ("k2", "v3")] := by
  decide

/-- C1 (amended): at a structured path of a well-formed fresh-output merge,
the output contains the key-mapping obtained by loading the LAST source (in
input order) that has a file at that path and then applying, in input order,
the top-level keys of every other source that has a file there — so a later
applied (i.e. earlier listed) source's value overwrites for a shared key. -/
theorem merge_structured_last_source_first (caches : List Cache) (out : Out)
    (hwf : ∀ c ∈ caches, PerCacheWF c)
    (h : merge_caches caches [] = some out)
    (p : RelPath) (hs : pathSuffix p = ".json")
    (cw : Cache) (hcw : lastContaining caches p = some cw)
    (d : Content) (hd : cw.lookup p = some d) :
    lookupFS out p = jsonMergeAt (othersFor caches cw) p d := by
  have hchar := mergeList_char caches caches [] out hwf h p
  rw [hchar]
  exact foldl_effect_json_some caches p hs caches _ cw d hcw hd

/-- Witness for the amended C1, on the claim's own example: the last
containing source is B, and merging B's mapping with A's applied on top
gives `{"k1": "v1", "k2": "v3"}`. -/
theorem merge_structured_last_source_first_witness :
    (∀ c ∈ [Cache.mk ["A"] [(["k.json"], Content.jmap [("k1", "v1")])],
            Cache.mk ["B"] [(["k.json"], Content.jmap [("k1", "v2"), ("k2", "v3")])]],
      PerCacheWF c) ∧
    lookupFS
        [(["k.json"], Content.jmap [("k1", "v1"), ("k2", "v3")]),
         (["k.json"], Content.jmap [("k1", "v2"), ("k2", "v3")])] ["k.json"] =
      jsonMergeAt
        (othersFor
          [Cache.mk ["A"] [(["k.json"], Content.jmap [("k1", "v1")])],
           Cache.mk ["B"] [(["k.json"], Content.jmap [("k1", "v2"), ("k2", "v3")])]]
          (Cache.mk ["B"] [(["k.json"], Content.jmap [("k1", "v2"), ("k2", "v3")])]))
        ["k.json"] (Content.jmap [("k1", "v2"), ("k2", "v3")]) ∧
    jsonMergeAt
        (othersFor
          [Cache.mk ["A"] [(["k.json"], Content.jmap [("k1", "v1")])],
           Cache.mk ["B"] [(["k.json"], Content.jmap [("k1", "v2"), ("k2", "v3")])]]
          (Cache.mk ["B"] [(["k.json"], Content.jmap [("k1", "v2"), ("k2", "v3")])]))
        ["k.json"] (Content.jmap [("k1", "v2"), ("k2", "v3")]) =
      some (Content.jmap [("k1", "v1"), ("k2", "v3")]) :=
  ⟨by decide,
    merge_structured_last_source_first
      [Cache.mk ["A"] [(["k.json"], Content.jmap [("k1", "v1")])],
       Cache.mk ["B"] [(["k.json"], Content.jmap [("k1", "v2"), ("k2", "v3")])]]
      [(["k.json"], Content.jmap [("k1", "v1"), ("k2", "v3")]),
       (["k.json"], Content.jmap [("k1", "v2"), ("k2", "v3")])]
      (by decide) (by rfl) ["k.json"] (by decide)
      (Cache.mk ["B"] [(["k.json"], Content.jmap [("k1", "v2"), ("k2", "v3")])])
      (by decide) (Content.jmap [("k1", "v2"), ("k2", "v3")]) (by decide),
    by decide⟩

/-- C4: re-running the merge over unchanged well-formed sources into the same
output directory succeeds and leaves the output tree pointwise (hence
byte-for-byte) identical to the tree after the first run. -/
theorem merge_idempotent (caches : List Cache) (out1 : Out)
    (hwf : ∀ c ∈ caches, PerCacheWF c)
    (h1 : merge_caches caches [] = some out1) :
    ∃ out2, merge_caches caches out1 = some out2 ∧
      ∀ p, lookupFS out2 p = lookupFS out1 p := by
  have hok := mergeList_json_ok caches caches [] out1 hwf h1
  have h2s : (mergeList caches out1 caches).isSome := mergeList_isSome caches caches out1 hwf hok
  rcases Option.isSome_iff_exists.mp h2s with ⟨out2, h2⟩
  refine ⟨out2, h2, ?_⟩
  intro p
  have hc1 := mergeList_char caches caches [] out1 hwf h1 p
  have hc2 := mergeList_char caches caches out1 out2 hwf h2 p
  simp only [lookupFS] at hc1
  by_cases hj : pathSuffix p = ".json"
  · cases hlast : lastContaining caches p with
    | none =>
      rw [hc2, foldl_effect_json_none caches p caches _ hlast]
    | some cw =>
      have hmem := lastContaining_mem hlast
      rcases Option.isSome_iff_exists.mp hmem.2 with ⟨d, hd⟩
      rw [hc2, foldl_effect_json_some caches p hj caches _ cw d hlast hd, hc1,
        foldl_effect_json_some caches p hj caches _ cw d hlast hd]
  · by_cases hl : pathSuffix p = ".lock"
    · rw [hc2, foldl_effect_lock caches p hl caches _]
    · cases hv : lookupFS out1 p with
      | some x =>
        rw [hc2, hv, foldl_effect_opaque_some caches p hj hl caches x]
      | none =>
        rw [hc2, hv, foldl_effect_opaque_none caches p hj hl caches]
        rw [hv, foldl_effect_opaque_none caches p hj hl caches] at hc1
        exact hc1.symm

/-- Witness for C4, on the two-source structured example. -/
theorem merge_idempotent_witness :
    (∀ c ∈ [Cache.mk ["A"] [(["k.json"], Content.jmap [("k1", "v1")])],
            Cache.mk ["B"] [(["k.json"], Content.jmap [("k1", "v2"), ("k2", "v3")])]],
      PerCacheWF c) ∧
    ∃ out2,
      merge_caches
          [Cache.mk ["A"] [(["k.json"], Content.jmap [("k1", "v1")])],
           Cache.mk ["B"] [(["k.json"], Content.jmap [("k1", "v2"), ("k2", "v3")])]]
          [(["k.json"], Content.jmap [("k1", "v1"), ("k2", "v3")]),
           (["k.json"], Content.jmap [("k1", "v2"), ("k2", "v3")])] = some out2 ∧
      ∀ p, lookupFS out2 p =
        lookupFS
          [(["k.json"], Content.jmap [("k1", "v1"), ("k2", "v3")]),
           (["k.json"], Content.jmap [("k1", "v2"), ("k2", "v3")])] p :=
  ⟨by decide,
    merge_idempotent
      [Cache.mk ["A"] [(["k.json"], Content.jmap [("k1", "v1")])],
       Cache.mk ["B"] [(["k.json"], Content.jmap [("k1", "v2"), ("k2", "v3")])]]
      [(["k.json"], Content.jmap [("k1", "v1"), ("k2", "v3")]),
       (["k.json"], Content.jmap [("k1", "v2"), ("k2", "v3")])]
      (by decide) (by rfl)⟩

/-- C7 counterexample: a cache whose root has two path components. Its file
`x.txt` (path relative to the cache root: `["x.txt"]`) lands in the output at
`["b", "x.txt"]` — the code strips only the first component of the full path
— so the output holds nothing at the root-independent location `["x.txt"]`,
and entries from producers with roots of different depths do not coincide. -/
theorem merge_path_stripping_counterexample :
    merge_caches [Cache.mk ["a", "b"] [(["x.txt"], Content.bytes [7])]] [] =
      some [(["b", "x.txt"], Content.bytes [7])] ∧
    lookupFS [(["b", "x.txt"], Content.bytes [7])] ["x.txt"] = none := by
  decide

/-- C7 (amended): the output path of a file is its full path with exactly the
first component stripped; when every cache root is a single path component
(part of `PerCacheWF`) this is the path relative to the cache root, and then
every non-lock file of every source appears in the merged output at that
path. -/
theorem merge_completeness_amended (caches : List Cache) (out : Out)
    (hwf : ∀ c ∈ caches, PerCacheWF c)
    (h : merge_caches caches [] = some out)
    (c : Cache) (hc : c ∈ caches) (rf : RelPath × Content) (hrf : rf ∈ c.files)
    (hs : pathSuffix rf.1 ≠ ".lock") :
    (lookupFS out rf.1).isSome := by
  have hchar := mergeList_char caches caches [] out hwf h rf.1
  have hcl : (c.lookup rf.1).isSome := by
    have hm : (rf.1, rf.2) ∈ c.files := by simpa using hrf
    exact lookupFS_isSome_of_mem hm
  by_cases hj : pathSuffix rf.1 = ".json"
  · have hlastS := lastContaining_isSome_of_mem hc hcl
    rcases Option.isSome_iff_exists.mp hlastS with ⟨cw, hcw⟩
    have hmem := lastContaining_mem hcw
    rcases Option.isSome_iff_exists.mp hmem.2 with ⟨d, hd⟩
    rw [hchar, foldl_effect_json_some caches rf.1 hj caches _ cw d hcw hd]
    exact mergeList_json_ok caches caches [] out hwf h cw hmem.1 (rf.1, d)
      (lookupFS_mem hd) hj
  · rw [hchar]
    simp only [lookupFS]
    rw [foldl_effect_opaque_none caches rf.1 hj hs caches]
    have hfind : (caches.find? (fun c => (c.lookup rf.1).isSome)).isSome := by
      rw [List.find?_isSome]
      exact ⟨c, hc, hcl⟩
    rcases Option.isSome_iff_exists.mp hfind with ⟨c0, hc0⟩
    have hp0 := List.find?_some hc0
    rw [hc0]
    simpa using hp0

/-- Witness for the amended C7: the non-lock file `y.txt` of a
single-component-root cache appears in the merged output at `["y.txt"]`. -/
theorem merge_completeness_amended_witness :
    (∀ c ∈ [Cache.mk ["C"] [(["w.lock"], Content.bytes [9]), (["y.txt"], Content.bytes [3])]],
      PerCacheWF c) ∧
    (lookupFS [(["y.txt"], Content.bytes [3])] ["y.txt"]).isSome :=
  ⟨by decide,
    merge_completeness_amended
      [Cache.mk ["C"] [(["w.lock"], Content.bytes [9]), (["y.txt"], Content.bytes [3])]]
      [(["y.txt"], Content.bytes [3])]
      (by decide) (by rfl)
      (Cache.mk ["C"] [(["w.lock"], Content.bytes [9]), (["y.txt"], Content.bytes [3])])
      (by decide) (["y.txt"], Content.bytes [3]) (by decide) (by decide)⟩

/-- C10: `merge_json_data` writes its output unconditionally — when every
listed input path is missing it still writes the empty mapping `{}` — and
the keys of any mapping it writes are in sorted order. -/
theorem merge_json_data_unconditional_write (inputs : List (Option Content)) :
    ((∀ x ∈ inputs, x = none) → merge_json_data inputs = some (Content.jmap [])) ∧
    (∀ m, merge_json_data inputs = some (Content.jmap m) → keysSortedB m = true) := by
  constructor
  · intro h
    unfold merge_json_data
    rw [mergeLoop_all_none inputs [] h]
    rfl
  · intro m hm
    unfold merge_json_data at hm
    cases hd : mergeLoop [] inputs with
    | none => rw [hd] at hm; cases hm
    | some d =>
      rw [hd] at hm
      simp only [Option.map_some'] at hm
      have : sortByKey d = m := by
        injection Option.some.inj hm
      rw [← this]
      exact keysSortedB_sortByKey d

/-- Witness for C10: with both listed paths missing the written object is
`{}`; and a written two-key object has its keys in sorted order. -/
theorem merge_json_data_unconditional_write_witness :
    merge_json_data [none, none] = some (Content.jmap []) ∧
    keysSortedB [("a", "1"), ("b", "2")] = true :=
  ⟨(merge_json_data_unconditional_write [none, none]).1 (by decide),
    (merge_json_data_unconditional_write [some (Content.jmap [("b", "2"), ("a", "1")])]).2
      [("a", "1"), ("b", "2")] (by decide)⟩

/-! ## Claims about the test executor -/

/-- C3 counterexample: a task with the well-separated slug `a/b` but a
40-character NON-hexadecimal hash (forty `z`s) is not rejected: the
TestRunner is invoked and the recorded outcome comes from the test run, not
from validation; likewise the slug `/` (one separator, two empty components)
passes the slug check.  Only containment of `/` and hash length are
validated. -/
theorem head_validation_counterexample :
    (head_passes_tests
        ⟨false, DirState.absent, DirState.absent, false, TEST_STATE.Tests_failed, none,
          DirState.absent, true⟩
        { repository := "a/b", head_hash := String.mk (List.replicate 40 'z') }).runnerInvoked
      = true ∧
    resultOf (head_passes_tests
        ⟨false, DirState.absent, DirState.absent, false, TEST_STATE.Tests_failed, none,
          DirState.absent, true⟩
        { repository := "a/b", head_hash := String.mk (List.replicate 40 'z') }) =
      some "Tests_failed" ∧
    (head_passes_tests
        ⟨false, DirState.absent, DirState.absent, false, TEST_STATE.Tests_failed, none,
          DirState.absent, true⟩
        { repository := "/", head_hash := String.mk (List.replicate 40 'a') }).runnerInvoked
      = true := by
  decide

/-- C3 (amended): the validation of `head_passes_tests` checks only that the
slug CONTAINS the separator `/` (not that it is exactly one separator with
two non-empty components) and that the hash LENGTH is exactly 40 (not that
the characters are hexadecimal).  When the slug check fails the row records
the literal `Wrong format`, when the hash check fails it records
`No valid head hash`, and in both cases neither the Repository nor any
TestRunner operation is invoked. -/
theorem head_validation_amended (b : RepoBehavior) (info : RepoInfo) :
    (containsSlash info.repository = false →
      head_passes_tests b info =
        { row := some { info with head_test_result := some "Wrong format" },
          raised := none, ctorInvoked := false, runnerInvoked := false,
          dir := b.dirBefore }) ∧
    (containsSlash info.repository = true → info.head_hash.length ≠ 40 →
      head_passes_tests b info =
        { row := some { info with head_test_result := some "No valid head hash" },
          raised := none, ctorInvoked := false, runnerInvoked := false,
          dir := b.dirBefore }) := by
  constructor
  · intro h
    simp [head_passes_tests, h]
  · intro h1 h2
    simp [head_passes_tests, h1, h2]

/-- Witness for the amended C3, at the spec's own examples: a slug without
separator and a 39-character hash. -/
theorem head_validation_amended_witness :
    (head_passes_tests
        ⟨false, DirState.absent, DirState.absent, false, TEST_STATE.Tests_failed, none,
          DirState.absent, true⟩
        { repository := "not-a-slug", head_hash := "x" } =
      { row := some { repository := "not-a-slug", head_hash := "x",
                      head_test_result := some "Wrong format",
                      head_tree_fingerprint := none },
        raised := none, ctorInvoked := false, runnerInvoked := false,
        dir := DirState.absent }) ∧
    (head_passes_tests
        ⟨false, DirState.absent, DirState.absent, false, TEST_STATE.Tests_failed, none,
          DirState.absent, true⟩
        { repository := "a/b", head_hash := String.mk (List.replicate 39 'a') } =
      { row := some { repository := "a/b", head_hash := String.mk (List.replicate 39 'a'),
                      head_test_result := some "No valid head hash",
                      head_tree_fingerprint := none },
        raised := none, ctorInvoked := false, runnerInvoked := false,
        dir := DirState.absent }) :=
  ⟨(head_validation_amended _ _).1 (by decide),
    (head_validation_amended _ _).2 (by decide) (by decide)⟩

/-- C2 counterexample: an exception while obtaining the cache-scoped
repository (step 3) is caught but recorded as `Git_checkout_failed`, not as
the claimed `Tests_exception`; and an exception from checkout-and-test
(step 4) is not caught at all — it propagates out of the per-task
function. -/
theorem head_exception_handling_counterexample :
    resultOf (head_passes_tests
        ⟨true, DirState.absent, DirState.absent, false, TEST_STATE.Tests_failed, none,
          DirState.absent, true⟩
        { repository := "a/b", head_hash := String.mk (List.replicate 40 'a') }) =
      some "Git_checkout_failed" ∧
    (some "Git_checkout_failed" : Option String) ≠ some "Tests_exception" ∧
    (head_passes_tests
        ⟨false, DirState.absent, DirState.absent, true, TEST_STATE.Tests_failed, none,
          DirState.absent, true⟩
        { repository := "a/b", head_hash := String.mk (List.replicate 40 'a') }).raised ≠
      none := by
  decide

/-- C2 (amended): for a task passing slug and hash validation, an exception
raised while obtaining the cache-scoped repository is caught inside the
per-task function but recorded as `Git_checkout_failed` (with a null
fingerprint), not `Tests_exception`; an exception raised by
checkout-and-test is NOT caught by the per-task function and propagates to
the pool with no result row.  `Tests_exception` can only arise as a value
returned by the TestRunner itself. -/
theorem head_exception_handling_amended (b : RepoBehavior) (info : RepoInfo)
    (hslug : containsSlash info.repository = true)
    (hhash : info.head_hash.length = 40) :
    (b.ctorRaises = true →
      resultOf (head_passes_tests b info) = some "Git_checkout_failed" ∧
      (head_passes_tests b info).raised = none ∧
      (head_passes_tests b info).runnerInvoked = false) ∧
    (b.ctorRaises = false → b.checkoutRaises = true →
      (head_passes_tests b info).row = none ∧
      (head_passes_tests b info).raised = some "checkout_and_test") := by
  constructor
  · intro hc
    simp [head_passes_tests, hslug, hhash, hc, resultOf, TEST_STATE.name]
  · intro hc hk
    simp [head_passes_tests, hslug, hhash, hc, hk]

/-- Witness for the amended C2, at a concrete task and both failure modes. -/
theorem head_exception_handling_amended_witness :
    (resultOf (head_passes_tests
        ⟨true, DirState.absent, DirState.absent, false, TEST_STATE.Tests_failed, none,
          DirState.absent, true⟩
        { repository := "a/b", head_hash := String.mk (List.replicate 40 'a') }) =
      some "Git_checkout_failed" ∧
     (head_passes_tests
        ⟨true, DirState.absent, DirState.absent, false, TEST_STATE.Tests_failed, none,
          DirState.absent, true⟩
        { repository := "a/b", head_hash := String.mk (List.replicate 40 'a') }).raised = none ∧
     (head_passes_tests
        ⟨true, DirState.absent, DirState.absent, false, TEST_STATE.Tests_failed, none,
          DirState.absent, true⟩
        { repository := "a/b", head_hash := String.mk (List.replicate 40 'a') }).runnerInvoked
       = false) ∧
    ((head_passes_tests
        ⟨false, DirState.absent, DirState.absent, true, TEST_STATE.Tests_failed, none,
          DirState.absent, true⟩
        { repository := "a/b", head_hash := String.mk (List.replicate 40 'a') }).row = none ∧
     (head_passes_tests
        ⟨false, DirState.absent, DirState.absent, true, TEST_STATE.Tests_failed, none,
          DirState.absent, true⟩
        { repository := "a/b", head_hash := String.mk (List.replicate 40 'a') }).raised =
       some "checkout_and_test") :=
  ⟨(head_exception_handling_amended _ _ (by decide) (by decide)).1 rfl,
    (head_exception_handling_amended _ _ (by decide) (by decide)).2 rfl rfl⟩

/-- C8 counterexample: when the Repository constructor raises, the function
records `Git_checkout_failed` (an outcome other than `Tests_passed`) and
returns WITHOUT any cleanup — so a pre-existing working directory still
exists after the per-task function returns, contradicting the claimed
cleanup invariant. -/
theorem head_cleanup_counterexample :
    resultOf (head_passes_tests
        ⟨true, DirState.presentFull, DirState.presentFull, false, TEST_STATE.Tests_failed,
          none, DirState.absent, true⟩
        { repository := "a/b", head_hash := String.mk (List.replicate 40 'a') }) =
      some "Git_checkout_failed" ∧
    (some "Git_checkout_failed" : Option String) ≠ some "Tests_passed" ∧
    (head_passes_tests
        ⟨true, DirState.presentFull, DirState.presentFull, false, TEST_STATE.Tests_failed,
          none, DirState.absent, true⟩
        { repository := "a/b", head_hash := String.mk (List.replicate 40 'a') }).dir =
      DirState.presentFull := by
  decide

/-- C8 (amended): the cleanup invariant holds only for outcomes returned by
checkout-and-test: when it returns an outcome other than `Tests_passed` the
working directory is removed (`rmtree` modelled as succeeding), and on
`Tests_passed` the directory exists with the fully materialized tree after
`clone_repo`.  When validation fails or the Repository constructor raises,
the directory is left in whatever state it already had. -/
theorem head_cleanup_amended (b : RepoBehavior) (info : RepoInfo)
    (hslug : containsSlash info.repository = true)
    (hhash : info.head_hash.length = 40)
    (hctor : b.ctorRaises = false) (hck : b.checkoutRaises = false) :
    (b.checkoutState ≠ TEST_STATE.Tests_passed →
      (head_passes_tests b info).dir = DirState.absent) ∧
    (b.checkoutState = TEST_STATE.Tests_passed → b.cloneSucceeds = true →
      (head_passes_tests b info).dir = DirState.presentFull) := by
  constructor
  · intro hst
    simp [head_passes_tests, hslug, hhash, hctor, hck, hst]
  · intro hst hcl
    simp [head_passes_tests, hslug, hhash, hctor, hck, hst, hcl]

/-- Witness for the amended C8, at a failing and at a passing run. -/
theorem head_cleanup_amended_witness :
    (head_passes_tests
        ⟨false, DirState.absent, DirState.absent, false, TEST_STATE.Tests_timedout, none,
          DirState.presentFull, true⟩
        { repository := "a/b", head_hash := String.mk (List.replicate 40 'a') }).dir =
      DirState.absent ∧
    (head_passes_tests
        ⟨false, DirState.absent, DirState.absent, false, TEST_STATE.Tests_passed,
          some "fp", DirState.presentFull, true⟩
        { repository := "a/b", head_hash := String.mk (List.replicate 40 'a') }).dir =
      DirState.presentFull :=
  ⟨(head_cleanup_amended _ _ (by decide) (by decide) rfl rfl).1 (by decide),
    (head_cleanup_amended _ _ (by decide) (by decide) rfl rfl).2 rfl rfl⟩

/-- C9: when no row's outcome is `Tests_passed`, the aggregation raises its
explicit error before writing anything: neither the filtered table nor the
full table is produced, and the process exits non-zero (the uncaught
`Exception` is modelled by `Except.error`). -/
theorem aggregate_fatal_on_empty (rows : List RepoInfo) (outputPath : String)
    (h : (rows.filter
      (fun r => r.head_test_result = some TEST_STATE.Tests_passed.name)).length = 0) :
    buildOutputs rows outputPath = Except.error "No repos found whose head passes tests" := by
  simp [buildOutputs, h]

/-- Witness for C9: one failing row, no table written. -/
theorem aggregate_fatal_on_empty_witness :
    (([{ repository := "a/b", head_hash := "h", head_test_result := some "Tests_failed",
         head_tree_fingerprint := none }] : List RepoInfo).filter
      (fun r => r.head_test_result = some TEST_STATE.Tests_passed.name)).length = 0 ∧
    buildOutputs
        [{ repository := "a/b", head_hash := "h", head_test_result := some "Tests_failed",
           head_tree_fingerprint := none }] "out.csv" =
      Except.error "No repos found whose head passes tests" :=
  ⟨by decide, aggregate_fatal_on_empty _ _ (by decide)⟩

end AstMerge
